import Mathlib

/-!
Shallow embedding of the ESP8266 relay scheduler (src/nod_mcu_sunete.ino):
the weekly event table, the relay pulse state machine, the scheduler tick,
the schedule load/save validation, and the next-event computation of the
Home-Assistant state handler.  millis() is a 32-bit unsigned counter,
modelled as a Nat reduced modulo U32; the C cast (long)(a - b) on unsigned
longs is modelled by toSigned32 of the wrapped difference.
-/

namespace Sunete

/-- Capacity bound: const int MAX_EVENTS_PER_DAY = 64. -/
def MAX_EVENTS_PER_DAY : Nat := 64

/-- 2^32, the modulus of unsigned long arithmetic on the ESP8266. -/
def U32 : Nat := 4294967296

/-- 2^31, the threshold of the signed reinterpretation of a 32-bit value. -/
def HALF32 : Nat := 2147483648

/-- struct Event of the sketch: int hh; int mm; int duration; bool enabled; bool firedToday. -/
structure Event where
  hh : Int
  mm : Int
  duration : Int
  enabled : Bool
  firedToday : Bool
deriving DecidableEq, Repr

/-- Numeric value of a character relative to the character zero, as in the C expression t[i]-'0'. -/
def digitVal (c : Char) : Int := (c.toNat : Int) - 48

/-- parseHH: (t[0]-'0')*10 + (t[1]-'0'); every call site guards the read with a strlen check. -/
def parseHH (t : List Char) : Int := digitVal (t.getD 0 ' ') * 10 + digitVal (t.getD 1 ' ')

/-- parseMM: (t[3]-'0')*10 + (t[4]-'0'). -/
def parseMM (t : List Char) : Int := digitVal (t.getD 3 ' ') * 10 + digitVal (t.getD 4 ' ')

/-- The relay globals of the sketch: bool relayOn; unsigned long relayOffAtMs. -/
structure RelayState where
  relayOn : Bool
  relayOffAtMs : Nat
deriving DecidableEq, Repr

/-- relayPulse: clamp seconds to at least 1, switch the relay on, and set
relayOffAtMs = millis() + (unsigned long)seconds * 1000UL in unsigned long
arithmetic.  The previous relay state is overwritten, not extended. -/
def relayPulse (seconds : Int) (nowMs : Nat) (_s : RelayState) : RelayState :=
  { relayOn := true,
    relayOffAtMs := (nowMs + (if seconds < 1 then (1 : Int) else seconds).toNat * 1000) % U32 }

/-- Unsigned 32-bit subtraction a - b as computed on unsigned long values. -/
def sub32 (a b : Nat) : Nat := (a % U32 + (U32 - b % U32)) % U32

/-- Reinterpretation of an unsigned 32-bit value as signed, the C cast (long). -/
def toSigned32 (d : Nat) : Int := if d < HALF32 then (d : Int) else (d : Int) - (U32 : Int)

/-- The auto-off test (long)(millis() - relayOffAtMs) >= 0. -/
def autoOffCond (nowMs offAt : Nat) : Bool := decide (0 ≤ toSigned32 (sub32 nowMs offAt))

/-- The relay auto-off block of schedulerTick:
if (relayOn && (long)(millis() - relayOffAtMs) >= 0) relayWrite(false). -/
def pulseTick (nowMs : Nat) (s : RelayState) : RelayState :=
  if s.relayOn && autoOffCond nowMs s.relayOffAtMs then { s with relayOn := false } else s

/-- The per-tick clock snapshot produced by getLocal: hour, minute, second, day of
year, and the Monday-based weekday. -/
structure Snapshot where
  hh : Int
  mm : Int
  ss : Int
  yday : Int
  wday : Nat
deriving DecidableEq, Repr

/-- The scheduler globals: weekEvents with its per-day counts (one list per day),
the relay state, and lastYDay. -/
structure SchedulerState where
  week : List (List Event)
  relay : RelayState
  lastYDay : Int
deriving DecidableEq, Repr

/-- The firing test of the scan loop of schedulerTick: enabled, not yet fired
today, and matching hour and minute. -/
def evMatch (hh mm : Int) (e : Event) : Bool :=
  e.enabled && !e.firedToday && (e.hh == hh) && (e.mm == mm)

/-- The scan loop of schedulerTick over today's events, carrying the index of the
current element: the first event passing evMatch is marked fired and its index and
duration are returned; the loop then breaks. -/
def scanDayAux (hh mm : Int) (k : Nat) : List Event → List Event × Option (Nat × Int)
  | [] => ([], none)
  | e :: rest =>
    if evMatch hh mm e then ({ e with firedToday := true } :: rest, some (k, e.duration))
    else
      let r := scanDayAux hh mm (k + 1) rest
      (e :: r.1, r.2)

/-- The scan loop started at the head of the day's list. -/
def scanDay (hh mm : Int) (l : List Event) : List Event × Option (Nat × Int) :=
  scanDayAux hh mm 0 l

/-- Day-rollover reset: firedToday := false on every event of every day. -/
def resetFired (week : List (List Event)) : List (List Event) :=
  week.map (fun l => l.map (fun e => { e with firedToday := false }))

/-- The day-change block of schedulerTick: on a new yday clear all fired flags and
record the new value. -/
def rolloverStep (yday : Int) (s : SchedulerState) : SchedulerState :=
  if s.lastYDay = yday then s else { s with week := resetFired s.week, lastYDay := yday }

/-- The auto-off block of schedulerTick, applied to the scheduler state. -/
def pulseStep (nowMs : Nat) (s : SchedulerState) : SchedulerState :=
  { s with relay := pulseTick nowMs s.relay }

/-- The gated matching part of schedulerTick: return unchanged unless ss == 0,
otherwise scan today's list; alongside the new state, report which event fired
(weekday, index, duration), if any. -/
def scanStep (snap : Snapshot) (nowMs : Nat) (s : SchedulerState) :
    SchedulerState × Option (Nat × Nat × Int) :=
  if snap.ss = 0 then
    match scanDay snap.hh snap.mm (s.week.getD snap.wday []) with
    | (day', none) => ({ s with week := s.week.set snap.wday day' }, none)
    | (day', some (i, dur)) =>
      ({ s with week := s.week.set snap.wday day', relay := relayPulse dur nowMs s.relay },
       some (snap.wday, i, dur))
  else (s, none)

/-- schedulerTick, instrumented with the event it fired: day-rollover reset, relay
auto-off, then the gated scan, in the order of the source. -/
def schedulerTickF (snap : Snapshot) (nowMs : Nat) (s : SchedulerState) :
    SchedulerState × Option (Nat × Nat × Int) :=
  scanStep snap nowMs (pulseStep nowMs (rolloverStep snap.yday s))

/-- schedulerTick as the state transformer of the sketch. -/
def schedulerTick (snap : Snapshot) (nowMs : Nat) (s : SchedulerState) : SchedulerState :=
  (schedulerTickF snap nowMs s).1

/-- The trace of fired events over a sequence of ticks. -/
def runTrace : List (Snapshot × Nat) → SchedulerState → List (Nat × Nat × Int)
  | [], _ => []
  | t :: ts, s =>
    match schedulerTickF t.1 t.2 s with
    | (s', none) => runTrace ts s'
    | (s', some f) => f :: runTrace ts s'

/-- One element of a parsed JSON day array: the time string and the optional
duration and enabled fields; an absent field takes the ArduinoJson default
written in the source (5 and true). -/
structure RawEvent where
  time : List Char
  duration : Option Int
  enabled : Option Bool
deriving DecidableEq, Repr

/-- The per-event validation and normalization shared verbatim by saveDayFromJson
and loadWeekFromFS: skip when strlen(t) < 5, parse positions 0,1 and 3,4, skip
when hour or minute is out of range, default the duration to 5 and clamp it to at
least 1, default enabled to true, start with firedToday false. -/
def normEvent (r : RawEvent) : Option Event :=
  if r.time.length < 5 then none
  else if parseHH r.time < 0 ∨ 23 < parseHH r.time ∨ parseMM r.time < 0 ∨ 59 < parseMM r.time
    then none
  else some
    { hh := parseHH r.time, mm := parseMM r.time,
      duration := if r.duration.getD 5 < 1 then 1 else r.duration.getD 5,
      enabled := r.enabled.getD true, firedToday := false }

/-- The accepting loop of saveDayFromJson and loadWeekFromFS: break once the day
holds MAX_EVENTS_PER_DAY events, otherwise append each event normEvent accepts;
cnt is the running weekCount of the day. -/
def buildDay : List RawEvent → Nat → List Event
  | [], _ => []
  | r :: rs, cnt =>
    if MAX_EVENTS_PER_DAY ≤ cnt then []
    else match normEvent r with
      | none => buildDay rs cnt
      | some e => e :: buildDay rs (cnt + 1)

/-- saveDayFromJson: reject a day outside 0..6 or an unparseable body (none),
otherwise rebuild the day's list from scratch and persist the whole table once
via saveWeekToFS (modelled as always succeeding; the third component counts the
persists issued). -/
def saveDayFromJson (day : Int) (body : Option (List RawEvent)) (week : List (List Event)) :
    Bool × List (List Event) × Nat :=
  if day < 0 ∨ 6 < day then (false, week, 0)
  else match body with
    | none => (false, week, 0)
    | some rs => (true, week.set day.toNat (buildDay rs 0), 1)

/-- The possible outcomes of reading /schedule_week.json: file absent, open
failure, JSON parse error, a document whose days field is not an array, or a
parsed array of day arrays (a non-array day element iterates as empty). -/
inductive FSRead where
  | absent
  | openFail
  | parseErr
  | noDaysArray
  | ok (days : List (List RawEvent))
deriving DecidableEq, Repr

/-- The 26 default times of seedDefaultWeek. -/
def defaultTimes : List (List Char) :=
  ["00:10", "00:15", "02:00", "02:30", "04:00", "04:15", "06:30",
   "07:55", "08:00", "10:00", "10:08", "10:10", "12:00", "12:20", "12:35", "12:40",
   "15:00", "15:08", "15:10", "17:00", "17:10", "17:15", "20:00", "20:15", "20:20",
   "22:30"].map String.toList

/-- seedDefaultWeek: the same default list on all 7 days, duration 5, enabled,
not fired, capped at MAX_EVENTS_PER_DAY. -/
def seedDefaultWeek : List (List Event) :=
  List.replicate 7
    ((defaultTimes.map fun t =>
      ({ hh := parseHH t, mm := parseMM t, duration := 5, enabled := true,
         firedToday := false } : Event)).take MAX_EVENTS_PER_DAY)

/-- loadWeekFromFS: an absent file seeds the defaults and saves them; open, parse
and shape failures return false without touching the table; a days array of
length exactly 7 replaces every day through the shared per-event validation and
returns true without saving.  The third component counts saveWeekToFS calls
(modelled as always succeeding). -/
def loadWeekFromFS (r : FSRead) (week : List (List Event)) :
    Bool × List (List Event) × Nat :=
  match r with
  | .absent => (true, seedDefaultWeek, 1)
  | .openFail => (false, week, 0)
  | .parseErr => (false, week, 0)
  | .noDaysArray => (false, week, 0)
  | .ok days =>
    if days.length = 7 then (true, days.map (fun l => buildDay l 0), 0)
    else (false, week, 0)

/-- The load-or-seed sequence of setup: if loadWeekFromFS fails, seed the
defaults and persist them. -/
def setupLoadSchedule (r : FSRead) (week : List (List Event)) : List (List Event) × Nat :=
  match loadWeekFromFS r week with
  | (true, w, n) => (w, n)
  | (false, _, n) => (seedDefaultWeek, n + 1)

/-- The day offset of the next-event scan in handleHaState:
deltaDay = d - wday, plus 7 when negative. -/
def deltaDayOf (wday d : Nat) : Int :=
  if (d : Int) - (wday : Int) < 0 then (d : Int) - (wday : Int) + 7
  else (d : Int) - (wday : Int)

/-- The minutes-until computation of the next-event scan in handleHaState for an
event of day d: same-day events use the same-day delta, wrapping a negative delta
to next week; other days add the day offset. -/
def deltaMin (hh mm : Int) (wday d : Nat) (e : Event) : Int :=
  if deltaDayOf wday d = 0 then
    (if e.hh * 60 + e.mm - (hh * 60 + mm) < 0 then
      e.hh * 60 + e.mm - (hh * 60 + mm) + 7 * 24 * 60
     else e.hh * 60 + e.mm - (hh * 60 + mm))
  else deltaDayOf wday d * 24 * 60 + (e.hh * 60 + e.mm - (hh * 60 + mm))

/-- The inner loop of the next-event scan: fold over one day's events, skipping
disabled ones and keeping the strictly smaller minutes-until candidate. -/
def neDay (hh mm : Int) (wday d : Nat) :
    List Event → Nat → Option (Nat × Nat) × Int → Option (Nat × Nat) × Int
  | [], _, b => b
  | e :: rest, i, b =>
    if e.enabled = true ∧ deltaMin hh mm wday d e < b.2 then
      neDay hh mm wday d rest (i + 1) (some (d, i), deltaMin hh mm wday d e)
    else neDay hh mm wday d rest (i + 1) b

/-- The outer loop of the next-event scan over the day indices. -/
def neDays (hh mm : Int) (wday : Nat) (week : List (List Event)) :
    List Nat → Option (Nat × Nat) × Int → Option (Nat × Nat) × Int
  | [], b => b
  | d :: ds, b => neDays hh mm wday week ds (neDay hh mm wday d (week.getD d []) 0 b)

/-- The next-event computation of handleHaState: scan all 7 days starting from
bestDeltaMin = 8*24*60 with no candidate; return the winning day, index and
minutes-until, or none. -/
def nextEvent (hh mm : Int) (wday : Nat) (week : List (List Event)) :
    Option (Nat × Nat × Int) :=
  match neDays hh mm wday week (List.range 7) (none, 8 * 24 * 60) with
  | (some (d, i), delta) => some (d, i, delta)
  | (none, _) => none

/-- Claim C4: re-triggering the pulse replaces the deadline with the one computed
from the second call alone (last-writer-wins, from either state), and a trigger of
duration d at time n switches the relay on with deadline n + d*1000 ms in unsigned
long arithmetic. -/
theorem pulse_retrigger_last_writer_wins (d1 d2 : Int) (n1 n2 : Nat) (s : RelayState) :
    relayPulse d2 n2 (relayPulse d1 n1 s) = relayPulse d2 n2 s ∧
    (1 ≤ d2 → relayPulse d2 n2 s =
      { relayOn := true, relayOffAtMs := (n2 + d2.toNat * 1000) % U32 }) := by
  refine ⟨rfl, fun h => ?_⟩
  simp [relayPulse, show ¬ d2 < 1 by omega]

/-- Witness for C4: trigger(3) then immediately trigger(10) at t = 0 leaves the
relay on with deadline 10000 ms, the second call's window, not 13000 and not 3000. -/
theorem pulse_retrigger_last_writer_wins_case :
    relayPulse 10 0 (relayPulse 3 0 { relayOn := false, relayOffAtMs := 0 }) =
      { relayOn := true, relayOffAtMs := 10000 } := by
  have h := pulse_retrigger_last_writer_wins 3 10 0 0 { relayOn := false, relayOffAtMs := 0 }
  rw [h.1, h.2 (by decide)]
  decide

/-- Claim C7: the pulse-controller tick (the auto-off block of schedulerTick):
when the relay is on and the signed 32-bit test says the deadline is reached, the
relay is switched off with the deadline field untouched; otherwise the relay state
is left entirely unchanged. -/
theorem pulse_tick_auto_off_spec (nowMs : Nat) (s : RelayState) :
    (s.relayOn = true → autoOffCond nowMs s.relayOffAtMs = true →
      pulseTick nowMs s = { relayOn := false, relayOffAtMs := s.relayOffAtMs }) ∧
    (s.relayOn = false ∨ autoOffCond nowMs s.relayOffAtMs = false →
      pulseTick nowMs s = s) := by
  obtain ⟨ro, off⟩ := s
  constructor
  · intro h1 h2
    simp only at h1 h2
    simp [pulseTick, h1, h2]
  · rintro (h | h) <;> simp only at h <;> simp [pulseTick, h]

/-- Witness for C7: an active relay whose deadline of 100 ms has long passed at
now = 5000 ms is switched off. -/
theorem pulse_tick_auto_off_spec_case :
    pulseTick 5000 { relayOn := true, relayOffAtMs := 100 } =
      { relayOn := false, relayOffAtMs := 100 } :=
  (pulse_tick_auto_off_spec 5000 { relayOn := true, relayOffAtMs := 100 }).1 rfl (by decide)

/-- Claim C10: with the elapsed distance and the remaining distance both inside the
signed 32-bit half-window, the auto-off test computed on the wrapped 32-bit values
holds exactly when the true deadline has been reached, so auto-off fires correctly
even when millis() wraps past 2^32 between trigger and deadline.  N and D are the
true unbounded monotonic times in ms; the program only ever sees them modulo 2^32. -/
theorem auto_off_wraparound_correct (N D : Nat)
    (h1 : N - D < HALF32) (h2 : D - N ≤ HALF32) :
    (autoOffCond (N % U32) (D % U32) = true ↔ D ≤ N) := by
  simp only [U32, HALF32] at h1 h2
  simp only [autoOffCond, sub32, toSigned32, decide_eq_true_eq, U32, HALF32]
  split <;> omega

/-- Witness for C10: a trigger whose deadline lands past the 2^32 ms wrap: at a
now 500 ms past that deadline the wrapped test fires. -/
theorem auto_off_wraparound_correct_case :
    autoOffCond ((4294967296 + 3500) % U32) ((4294967296 + 3000) % U32) = true :=
  (auto_off_wraparound_correct (4294967296 + 3500) (4294967296 + 3000)
    (by decide) (by decide)).mpr (by decide)

theorem get?_set_of_ne {α : Type} (l : List α) (n j : Nat) (a : α) (h : n ≠ j) :
    (l.set n a).get? j = l.get? j := by
  induction l generalizing n j with
  | nil => simp
  | cons x xs ih =>
    cases n with
    | zero => cases j with
      | zero => exact absurd rfl h
      | succ j => simp [List.set]
    | succ n => cases j with
      | zero => simp [List.set]
      | succ j => simpa [List.set] using ih n j (by omega)

theorem getD_set_spec (w : List (List Event)) (n : Nat) (l' : List Event) (d : Nat) :
    (w.set n l').getD d [] = if d = n ∧ n < w.length then l' else w.getD d [] := by
  induction w generalizing n d with
  | nil => simp
  | cons x xs ih =>
    cases n with
    | zero =>
      cases d with
      | zero => simp
      | succ d => simp
    | succ n =>
      cases d with
      | zero => simp
      | succ d =>
        simp only [List.set, List.getD_cons_succ, List.length_cons, ih n d]
        by_cases hdn : d = n
        · subst hdn
          by_cases hlt : d < xs.length <;> simp [hlt, Nat.succ_lt_succ_iff]
        · simp [hdn, fun h : d + 1 = n + 1 => hdn (by omega)]

theorem getD_of_length_le (w : List (List Event)) (d : Nat) (h : w.length ≤ d) :
    w.getD d [] = [] := by
  induction w generalizing d with
  | nil => simp
  | cons x xs ih =>
    cases d with
    | zero => simp at h
    | succ d => simpa using ih d (by simpa using h)

theorem get?_resetFired (week : List (List Event)) (d : Nat) :
    (resetFired week).getD d [] = (week.getD d []).map (fun e => { e with firedToday := false }) := by
  induction week generalizing d with
  | nil => simp [resetFired]
  | cons x xs ih =>
    cases d with
    | zero => simp [resetFired]
    | succ d => simpa [resetFired] using ih d

/-- If index i holds the first event passing evMatch, the scan marks exactly that
event fired and reports its index and duration. -/
theorem scanDayAux_first (hh mm : Int) (l : List Event) (k i : Nat) (e : Event)
    (hget : l.get? i = some e) (hm : evMatch hh mm e = true)
    (hfirst : ∀ j < i, ∀ e', l.get? j = some e' → evMatch hh mm e' = false) :
    scanDayAux hh mm k l = (l.set i { e with firedToday := true }, some (k + i, e.duration)) := by
  induction l generalizing k i with
  | nil => simp at hget
  | cons f rest ih =>
    cases i with
    | zero =>
      simp only [List.get?] at hget
      cases hget
      simp [scanDayAux, hm]
    | succ i =>
      have hf : evMatch hh mm f = false := hfirst 0 (Nat.succ_pos i) f rfl
      have := ih (k + 1) i (by simpa using hget)
        (fun j hj e' hj' => hfirst (j + 1) (by omega) e' (by simpa using hj'))
      simp only [scanDayAux, hf, Bool.false_eq_true, if_false]
      have hk : k + 1 + i = k + (i + 1) := by omega
      rw [this, hk]
      rfl

/-- If no event passes evMatch, the scan leaves the list unchanged and fires nothing. -/
theorem scanDayAux_none (hh mm : Int) (l : List Event) (k : Nat)
    (h : ∀ e ∈ l, evMatch hh mm e = false) :
    scanDayAux hh mm k l = (l, none) := by
  induction l generalizing k with
  | nil => rfl
  | cons f rest ih =>
    have hf := h f (List.mem_cons_self f rest)
    simp only [scanDayAux, hf, Bool.false_eq_true, if_false]
    rw [ih (k + 1) (fun e he => h e (List.mem_cons_of_mem f he))]

/-- Inversion: a fired scan result comes from a concrete first matching event. -/
theorem scanDayAux_some_inv (hh mm : Int) (l : List Event) (k : Nat) (l' : List Event)
    (idx : Nat) (dur : Int)
    (h : scanDayAux hh mm k l = (l', some (idx, dur))) :
    ∃ j e, idx = k + j ∧ l.get? j = some e ∧ evMatch hh mm e = true ∧ dur = e.duration ∧
      l' = l.set j { e with firedToday := true } := by
  induction l generalizing k l' with
  | nil => simp [scanDayAux] at h
  | cons f rest ih =>
    by_cases hf : evMatch hh mm f = true
    · simp only [scanDayAux, hf, if_true, Prod.mk.injEq, Option.some.injEq] at h
      obtain ⟨hl, hk, hd⟩ := h
      exact ⟨0, f, by omega, rfl, hf, hd.symm, by simpa using hl.symm⟩
    · simp only [scanDayAux, hf, Bool.false_eq_true, if_false, Prod.mk.injEq] at h
      obtain ⟨hl, ho⟩ := h
      have hrec : scanDayAux hh mm (k + 1) rest =
          ((scanDayAux hh mm (k + 1) rest).1, some (idx, dur)) := by
        rw [← ho]
      obtain ⟨j, e, hidx, hget, hm, hdur, hl1⟩ := ih (k + 1) _ hrec
      exact ⟨j + 1, e, by omega, by simpa using hget, hm, hdur, by simp [← hl, hl1]⟩

/-- Every event of a reset table has its fired flag cleared. -/
theorem resetFired_fired (week : List (List Event)) (d i : Nat) (e : Event)
    (h : ((resetFired week).getD d []).get? i = some e) : e.firedToday = false := by
  rw [get?_resetFired, List.get?_map] at h
  rcases Option.map_eq_some'.1 h with ⟨e0, _, he⟩
  rw [← he]

/-- Inversion: a scan that fired nothing leaves the list unchanged. -/
theorem scanDayAux_none_inv (hh mm : Int) (l : List Event) (k : Nat) (l' : List Event)
    (h : scanDayAux hh mm k l = (l', none)) : l' = l := by
  induction l generalizing k l' with
  | nil => simpa [scanDayAux] using h.symm
  | cons f rest ih =>
    by_cases hf : evMatch hh mm f = true
    · simp [scanDayAux, hf] at h
    · simp only [scanDayAux, hf, Bool.false_eq_true, if_false, Prod.mk.injEq] at h
      obtain ⟨hl, ho⟩ := h
      have : (scanDayAux hh mm (k + 1) rest).1 = rest :=
        ih (k + 1) _ (by rw [← ho])
      rw [← hl, this]

/-- Claim C1: with the clock on the same calendar day, second equal to 0, and
index i holding the first enabled, not-yet-fired event of today's list whose hour
and minute equal the snapshot's, the tick triggers exactly one pulse, of that
event's duration, marks exactly that event fired, and changes nothing else; in
particular a later event sharing the same timestamp does not fire. -/
theorem tick_fires_first_match (s : SchedulerState) (snap : Snapshot) (nowMs : Nat)
    (i : Nat) (e : Event)
    (hday : s.lastYDay = snap.yday) (hss : snap.ss = 0)
    (hget : (s.week.getD snap.wday []).get? i = some e)
    (hen : e.enabled = true) (hnf : e.firedToday = false)
    (hhh : e.hh = snap.hh) (hmm : e.mm = snap.mm) (hdur : 1 ≤ e.duration)
    (hfirst : ∀ j < i, ∀ e', (s.week.getD snap.wday []).get? j = some e' →
      evMatch snap.hh snap.mm e' = false) :
    schedulerTickF snap nowMs s =
      ({ week := s.week.set snap.wday
            ((s.week.getD snap.wday []).set i { e with firedToday := true }),
         relay := { relayOn := true, relayOffAtMs := (nowMs + e.duration.toNat * 1000) % U32 },
         lastYDay := s.lastYDay },
       some (snap.wday, i, e.duration)) := by
  obtain ⟨w, r, ly⟩ := s
  simp only at hday hget hfirst
  subst hday
  have hm : evMatch snap.hh snap.mm e = true := by
    simp [evMatch, hen, hnf, hhh, hmm]
  have hscan := scanDayAux_first snap.hh snap.mm (w.getD snap.wday []) 0 i e hget hm hfirst
  simp only [Nat.zero_add] at hscan
  have hro : rolloverStep snap.yday ⟨w, r, snap.yday⟩ = ⟨w, r, snap.yday⟩ := by
    unfold rolloverStep
    split
    next => rfl
    next h => exact absurd rfl h
  show scanStep snap nowMs (pulseStep nowMs (rolloverStep snap.yday ⟨w, r, snap.yday⟩)) = _
  rw [hro]
  show scanStep snap nowMs ⟨w, pulseTick nowMs r, snap.yday⟩ = _
  simp only [scanStep]
  rw [if_pos hss]
  simp only [scanDay]
  rw [hscan]
  simp [relayPulse, show ¬ e.duration < 1 by omega]

/-- Witness for C1: two enabled events at 08:00 on Monday; the tick at 08:00:00
fires only the first, for its 5-second duration, and marks only it fired. -/
theorem tick_fires_first_match_case :
    schedulerTickF ⟨8, 0, 0, 200, 0⟩ 0
        ⟨[[⟨8, 0, 5, true, false⟩, ⟨8, 0, 7, true, false⟩], [], [], [], [], [], []],
         ⟨false, 0⟩, 200⟩ =
      (⟨[[⟨8, 0, 5, true, true⟩, ⟨8, 0, 7, true, false⟩], [], [], [], [], [], []],
        ⟨true, 5000⟩, 200⟩,
       some (0, 0, 5)) := by
  have h := tick_fires_first_match
    ⟨[[⟨8, 0, 5, true, false⟩, ⟨8, 0, 7, true, false⟩], [], [], [], [], [], []],
     ⟨false, 0⟩, 200⟩
    ⟨8, 0, 0, 200, 0⟩ 0 0 ⟨8, 0, 5, true, false⟩ rfl rfl (by decide) rfl rfl rfl rfl
    (by decide) (fun j hj e' h' => absurd hj (Nat.not_lt_zero j))
  rw [h]
  decide

/-- Within the same calendar day a tick keeps lastYDay, keeps an already-fired
event untouched, and never reports that event as fired again. -/
theorem tick_preserves_fired (snap : Snapshot) (nowMs : Nat) (s : SchedulerState)
    (hday : s.lastYDay = snap.yday) (d i : Nat) (e : Event)
    (hget : (s.week.getD d []).get? i = some e) (hfired : e.firedToday = true) :
    (schedulerTick snap nowMs s).lastYDay = s.lastYDay ∧
    ((schedulerTick snap nowMs s).week.getD d []).get? i = some e ∧
    ∀ dur : Int, (schedulerTickF snap nowMs s).2 ≠ some (d, i, dur) := by
  obtain ⟨w, r, ly⟩ := s
  simp only at hday hget
  subst hday
  have hro : rolloverStep snap.yday ⟨w, r, snap.yday⟩ = ⟨w, r, snap.yday⟩ := by
    unfold rolloverStep
    split
    next => rfl
    next h => exact absurd rfl h
  simp only [schedulerTick, schedulerTickF, hro, pulseStep]
  by_cases hss : snap.ss = 0
  · simp only [scanStep]
    rw [if_pos hss]
    simp only [scanDay]
    rcases hsc : scanDayAux snap.hh snap.mm 0 (w.getD snap.wday []) with ⟨l', o⟩
    cases o with
    | none =>
      have hl' : l' = w.getD snap.wday [] := scanDayAux_none_inv _ _ _ _ _ hsc
      subst hl'
      refine ⟨rfl, ?_, by simp⟩
      show ((w.set snap.wday (w.getD snap.wday [])).getD d []).get? i = some e
      rw [getD_set_spec]
      by_cases hcase : d = snap.wday ∧ snap.wday < w.length
      · rw [if_pos hcase, ← hcase.1]
        exact hget
      · rw [if_neg hcase]
        exact hget
    | some jd =>
      rcases jd with ⟨j, dur⟩
      obtain ⟨j0, e0, hj, hg0, hm0, hd0, hl'⟩ :=
        scanDayAux_some_inv snap.hh snap.mm _ 0 l' j dur hsc
      have hj0 : j = j0 := by omega
      subst hj0
      have he0f : e0.firedToday = false := by
        simp only [evMatch, Bool.and_eq_true, Bool.not_eq_true'] at hm0
        exact hm0.1.1.2
      have hne : d ≠ snap.wday ∨ i ≠ j := by
        by_contra hcon
        push_neg at hcon
        obtain ⟨hd1, hi1⟩ := hcon
        rw [hd1, hi1] at hget
        rw [hget] at hg0
        cases hg0
        rw [hfired] at he0f
        exact absurd he0f (by simp)
      refine ⟨rfl, ?_, ?_⟩
      · show ((w.set snap.wday l').getD d []).get? i = some e
        rw [getD_set_spec]
        by_cases hcase : d = snap.wday ∧ snap.wday < w.length
        · rw [if_pos hcase, hl']
          have hij : i ≠ j := by
            rcases hne with h1 | h1
            · exact absurd hcase.1 h1
            · exact h1
          rw [get?_set_of_ne _ _ _ _ (fun hq => hij hq.symm), ← hcase.1]
          exact hget
        · rw [if_neg hcase]
          exact hget
      · intro dur' hcon
        simp only [Option.some.injEq, Prod.mk.injEq] at hcon
        rcases hne with h1 | h1
        · exact h1 hcon.1.symm
        · exact h1 hcon.2.1.symm
  · simp only [scanStep]
    rw [if_neg hss]
    exact ⟨rfl, hget, by simp⟩

/-- Claim C5 (counterexample): a tick that observes a day change with second == 0
and a matching enabled event fires that event within the same tick, so after the
tick not every fired flag is false — the claim as stated fails at this input
(lastYDay 5, snapshot yday 6, 00:10:00, one enabled 00:10 event on Monday). -/
theorem rollover_tick_can_leave_fired :
    ((⟨[[⟨0, 10, 5, true, false⟩], [], [], [], [], [], []], ⟨false, 0⟩, 5⟩ :
        SchedulerState).lastYDay ≠ (⟨0, 10, 0, 6, 0⟩ : Snapshot).yday) ∧
    ((schedulerTick ⟨0, 10, 0, 6, 0⟩ 0
        ⟨[[⟨0, 10, 5, true, false⟩], [], [], [], [], [], []], ⟨false, 0⟩,
          5⟩).week.getD 0 []).get? 0 = some ⟨0, 10, 5, true, true⟩ := by
  decide

/-- Claim C5 (amended): when the tick observes a new day_of_year it records the
new value and clears fired_today on every event of all 7 day lists before
matching, so after the tick every fired flag is false except that, when second
equals 0, the one event fired by this very tick's matcher is marked true; and
when day_of_year is unchanged no fired flag is ever cleared — the rollover reset
is the only re-arm mechanism. -/
theorem rollover_reset_behavior (s : SchedulerState) (snap : Snapshot) (nowMs : Nat) :
    (s.lastYDay ≠ snap.yday →
      (schedulerTick snap nowMs s).lastYDay = snap.yday ∧
      ∀ d i e, ((schedulerTick snap nowMs s).week.getD d []).get? i = some e →
        e.firedToday = true →
        snap.ss = 0 ∧ d = snap.wday ∧
          ∃ dur, (schedulerTickF snap nowMs s).2 = some (snap.wday, i, dur)) ∧
    (s.lastYDay = snap.yday →
      ∀ d i e, (s.week.getD d []).get? i = some e → e.firedToday = true →
        ((schedulerTick snap nowMs s).week.getD d []).get? i = some e) := by
  constructor
  · intro hne
    obtain ⟨w, r, ly⟩ := s
    simp only at hne
    have hro : rolloverStep snap.yday ⟨w, r, ly⟩ = ⟨resetFired w, r, snap.yday⟩ := by
      unfold rolloverStep
      split
      next h => exact absurd h hne
      next => rfl
    simp only [schedulerTick, schedulerTickF, hro, pulseStep]
    by_cases hss : snap.ss = 0
    · simp only [scanStep]
      rw [if_pos hss]
      simp only [scanDay]
      rcases hsc : scanDayAux snap.hh snap.mm 0 ((resetFired w).getD snap.wday [])
        with ⟨l', o⟩
      cases o with
      | none =>
        have hl' : l' = (resetFired w).getD snap.wday [] :=
          scanDayAux_none_inv _ _ _ _ _ hsc
        subst hl'
        refine ⟨rfl, ?_⟩
        intro d i e hg hf
        exfalso
        rw [getD_set_spec] at hg
        by_cases hcase : d = snap.wday ∧ snap.wday < (resetFired w).length
        · rw [if_pos hcase] at hg
          have := resetFired_fired w snap.wday i e hg
          rw [hf] at this
          exact absurd this (by simp)
        · rw [if_neg hcase] at hg
          have := resetFired_fired w d i e hg
          rw [hf] at this
          exact absurd this (by simp)
      | some jd =>
        rcases jd with ⟨j, dur⟩
        obtain ⟨j0, e0, hj, hg0, hm0, hd0, hl'⟩ :=
          scanDayAux_some_inv snap.hh snap.mm _ 0 l' j dur hsc
        have hjj : j = j0 := by omega
        subst hjj
        refine ⟨rfl, ?_⟩
        intro d i e hg hf
        rw [getD_set_spec] at hg
        by_cases hcase : d = snap.wday ∧ snap.wday < (resetFired w).length
        · rw [if_pos hcase] at hg
          rw [hl'] at hg
          by_cases hij : i = j
          · subst hij
            exact ⟨hss, hcase.1, ⟨dur, rfl⟩⟩
          · rw [get?_set_of_ne _ _ _ _ (fun hq => hij hq.symm)] at hg
            have := resetFired_fired w snap.wday i e hg
            rw [hf] at this
            exact absurd this (by simp)
        · rw [if_neg hcase] at hg
          have := resetFired_fired w d i e hg
          rw [hf] at this
          exact absurd this (by simp)
    · simp only [scanStep]
      rw [if_neg hss]
      refine ⟨rfl, ?_⟩
      intro d i e hg hf
      exfalso
      have := resetFired_fired w d i e hg
      rw [hf] at this
      exact absurd this (by simp)
  · intro hday d i e hg hf
    exact (tick_preserves_fired snap nowMs s hday d i e hg hf).2.1

/-- Witness for C5: a rollover tick away from second 0 re-arms the fired event
and records the new day_of_year 6. -/
theorem rollover_reset_behavior_case :
    (schedulerTick ⟨3, 4, 7, 6, 0⟩ 0
      ⟨[[⟨0, 10, 5, true, true⟩], [], [], [], [], [], []], ⟨false, 0⟩, 5⟩).lastYDay = 6 :=
  ((rollover_reset_behavior
      ⟨[[⟨0, 10, 5, true, true⟩], [], [], [], [], [], []], ⟨false, 0⟩, 5⟩
      ⟨3, 4, 7, 6, 0⟩ 0).1 (by decide)).1

/-- Claim C6: an event already marked fired_today never triggers another pulse on
any later tick of the same calendar day, even if a tick revisits second == 0 at
its matching minute. -/
theorem fired_event_never_refires (s : SchedulerState) (ts : List (Snapshot × Nat))
    (hall : ∀ t ∈ ts, (Prod.fst t).yday = s.lastYDay)
    (d i : Nat) (e : Event)
    (hget : (s.week.getD d []).get? i = some e) (hfired : e.firedToday = true)
    (dur : Int) :
    (d, i, dur) ∉ runTrace ts s := by
  induction ts generalizing s with
  | nil => simp [runTrace]
  | cons t ts ih =>
    have hday : s.lastYDay = t.1.yday := (hall t (List.mem_cons_self t ts)).symm
    obtain ⟨hly, hg, hne⟩ := tick_preserves_fired t.1 t.2 s hday d i e hget hfired
    rcases hF : schedulerTickF t.1 t.2 s with ⟨s', o⟩
    have hs' : s' = schedulerTick t.1 t.2 s := by rw [schedulerTick, hF]
    have hly' : s'.lastYDay = s.lastYDay := by rw [hs']; exact hly
    have hg' : (s'.week.getD d []).get? i = some e := by rw [hs']; exact hg
    have hallts : ∀ u ∈ ts, (Prod.fst u).yday = s'.lastYDay := by
      intro u hu
      rw [hly']
      exact hall u (List.mem_cons_of_mem t hu)
    cases o with
    | none =>
      simp only [runTrace, hF]
      exact ih s' hallts hg'
    | some f =>
      simp only [runTrace, hF]
      intro hmem
      rcases List.mem_cons.1 hmem with h1 | h1
      · rcases f with ⟨fd, fi, fdur⟩
        have h2 : (schedulerTickF t.1 t.2 s).2 = some (fd, fi, fdur) := by rw [hF]
        rw [← h1] at h2
        exact hne dur h2
      · exact ih s' hallts hg' h1

/-- Witness for C6: the 08:00 Monday event is already fired; two further ticks at
08:00:00 of the same day never fire it again. -/
theorem fired_event_never_refires_case :
    (0, 0, (5 : Int)) ∉ runTrace
      [(⟨8, 0, 0, 10, 0⟩, 0), (⟨8, 0, 0, 10, 0⟩, 1000)]
      ⟨[[⟨8, 0, 5, true, true⟩], [], [], [], [], [], []], ⟨false, 0⟩, 10⟩ :=
  fired_event_never_refires
    ⟨[[⟨8, 0, 5, true, true⟩], [], [], [], [], [], []], ⟨false, 0⟩, 10⟩
    [(⟨8, 0, 0, 10, 0⟩, 0), (⟨8, 0, 0, 10, 0⟩, 1000)]
    (by decide) 0 0 ⟨8, 0, 5, true, true⟩ rfl rfl 5

/-- The accepting loop equals truncation of the accepted events at the remaining
capacity. -/
theorem buildDay_eq (rs : List RawEvent) (cnt : Nat) (h : cnt ≤ MAX_EVENTS_PER_DAY) :
    buildDay rs cnt = (rs.filterMap normEvent).take (MAX_EVENTS_PER_DAY - cnt) := by
  induction rs generalizing cnt with
  | nil => simp [buildDay]
  | cons r rs ih =>
    by_cases hc : MAX_EVENTS_PER_DAY ≤ cnt
    · have h0 : MAX_EVENTS_PER_DAY - cnt = 0 := by omega
      simp only [buildDay]
      rw [if_pos hc, h0, List.take_zero]
    · simp only [buildDay]
      rw [if_neg hc]
      rcases hn : normEvent r with _ | e
      · show buildDay rs cnt = _
        rw [List.filterMap_cons_none hn]
        exact ih cnt h
      · show e :: buildDay rs (cnt + 1) = _
        rw [List.filterMap_cons_some hn]
        have hs : MAX_EVENTS_PER_DAY - cnt = (MAX_EVENTS_PER_DAY - (cnt + 1)) + 1 := by omega
        rw [hs, List.take_succ_cons, ih (cnt + 1) (by omega)]

/-- A valid day and a parsed body always fully replace the day with the first
MAX_EVENTS_PER_DAY accepted events and persist once. -/
theorem saveDayFromJson_eq (day : Int) (rs : List RawEvent) (week : List (List Event))
    (h0 : 0 ≤ day) (h6 : day ≤ 6) :
    saveDayFromJson day (some rs) week =
      (true, week.set day.toNat ((rs.filterMap normEvent).take MAX_EVENTS_PER_DAY), 1) := by
  simp only [saveDayFromJson]
  rw [if_neg (by omega)]
  rw [buildDay_eq rs 0 (by omega), Nat.sub_zero]

/-- Claim C2: for every day index 0..6 and parsed body, saveDayFromJson rebuilds
the day from scratch as the first MAX_EVENTS_PER_DAY events accepted by the
per-event validation — an event with a time failing the check is skipped without
failing the batch, a duration below 1 is clamped to 1, a missing enabled flag
defaults to true — fully replacing the day's prior contents, and persists the
whole table exactly once before returning success; on the spec's concrete input
the stored day is exactly 09:00 for 10 s and 10:00 clamped to 1 s. -/
theorem saveDay_replaces_and_persists (day : Int) (rs : List RawEvent)
    (week : List (List Event)) (h0 : 0 ≤ day) (h6 : day ≤ 6) :
    saveDayFromJson day (some rs) week =
      (true, week.set day.toNat ((rs.filterMap normEvent).take MAX_EVENTS_PER_DAY), 1) ∧
    (∀ r : RawEvent, r.time.length < 5 → normEvent r = none) ∧
    (∀ r : RawEvent, 5 ≤ r.time.length →
      (parseHH r.time < 0 ∨ 23 < parseHH r.time ∨ parseMM r.time < 0 ∨ 59 < parseMM r.time) →
      normEvent r = none) ∧
    (∀ (r : RawEvent) (e : Event), normEvent r = some e →
      1 ≤ e.duration ∧ e.enabled = r.enabled.getD true ∧ e.firedToday = false) ∧
    saveDayFromJson 3 (some
        [⟨"09:00".toList, some 10, some true⟩, ⟨"bad".toList, some 5, some true⟩,
         ⟨"10:00".toList, some 0, some true⟩]) week =
      (true, week.set 3 [⟨9, 0, 10, true, false⟩, ⟨10, 0, 1, true, false⟩], 1) := by
  refine ⟨saveDayFromJson_eq day rs week h0 h6, ?_, ?_, ?_, ?_⟩
  · intro r hr
    simp only [normEvent]
    rw [if_pos hr]
  · intro r hr5 hrange
    simp only [normEvent]
    rw [if_neg (by omega), if_pos hrange]
  · intro r e hre
    simp only [normEvent] at hre
    by_cases h5 : r.time.length < 5
    · rw [if_pos h5] at hre
      cases hre
    · rw [if_neg h5] at hre
      by_cases hrange : parseHH r.time < 0 ∨ 23 < parseHH r.time ∨
          parseMM r.time < 0 ∨ 59 < parseMM r.time
      · rw [if_pos hrange] at hre
        cases hre
      · rw [if_neg hrange] at hre
        cases hre
        refine ⟨?_, rfl, rfl⟩
        dsimp only
        split
        · omega
        · omega
  · rw [saveDayFromJson_eq 3 _ week (by omega) (by omega)]
    have hlist : (([⟨"09:00".toList, some 10, some true⟩, ⟨"bad".toList, some 5, some true⟩,
        ⟨"10:00".toList, some 0, some true⟩] : List RawEvent).filterMap normEvent).take
          MAX_EVENTS_PER_DAY =
        [⟨9, 0, 10, true, false⟩, ⟨10, 0, 1, true, false⟩] := by decide
    rw [hlist]
    rfl

/-- Witness for C2: the spec's concrete call on an empty table. -/
theorem saveDay_replaces_and_persists_case :
    saveDayFromJson 3 (some
        [⟨"09:00".toList, some 10, some true⟩, ⟨"bad".toList, some 5, some true⟩,
         ⟨"10:00".toList, some 0, some true⟩]) (List.replicate 7 []) =
      (true, (List.replicate 7 ([] : List Event)).set 3
        [⟨9, 0, 10, true, false⟩, ⟨10, 0, 1, true, false⟩], 1) :=
  (saveDay_replaces_and_persists 3
    [⟨"09:00".toList, some 10, some true⟩, ⟨"bad".toList, some 5, some true⟩,
     ⟨"10:00".toList, some 0, some true⟩]
    (List.replicate 7 []) (by omega) (by omega)).2.2.2.2

/-- Claim C9: the time-string validation shared by replace-day and load is
shallow: any string of length at least 5 whose characters at positions 0,1 and
3,4, read as digits, give an hour in 0..23 and a minute in 0..59 is accepted —
the separator at position 2 and everything past position 4 are never inspected.
Such an event is accepted by normEvent, stored by saveDayFromJson, and loaded by
loadWeekFromFS. -/
theorem time_validation_lax (t : List Char) (dur : Option Int) (en : Option Bool)
    (hlen : 5 ≤ t.length)
    (hh0 : 0 ≤ parseHH t) (hh1 : parseHH t ≤ 23)
    (hm0 : 0 ≤ parseMM t) (hm1 : parseMM t ≤ 59) :
    normEvent ⟨t, dur, en⟩ =
      some ⟨parseHH t, parseMM t, (if dur.getD 5 < 1 then 1 else dur.getD 5),
        en.getD true, false⟩ ∧
    (∀ week, saveDayFromJson 0 (some [⟨t, dur, en⟩]) week =
      (true, week.set 0 [⟨parseHH t, parseMM t,
        (if dur.getD 5 < 1 then 1 else dur.getD 5), en.getD true, false⟩], 1)) ∧
    (∀ week, loadWeekFromFS (FSRead.ok [[⟨t, dur, en⟩], [], [], [], [], [], []]) week =
      (true, [[⟨parseHH t, parseMM t,
        (if dur.getD 5 < 1 then 1 else dur.getD 5), en.getD true, false⟩],
        [], [], [], [], [], []], 0)) := by
  have hnorm : normEvent ⟨t, dur, en⟩ =
      some ⟨parseHH t, parseMM t, (if dur.getD 5 < 1 then 1 else dur.getD 5),
        en.getD true, false⟩ := by
    simp only [normEvent]
    rw [if_neg (by omega), if_neg (by omega)]
  have hbuild : buildDay [⟨t, dur, en⟩] 0 =
      [⟨parseHH t, parseMM t, (if dur.getD 5 < 1 then 1 else dur.getD 5),
        en.getD true, false⟩] := by
    simp only [buildDay]
    rw [if_neg (by simp [MAX_EVENTS_PER_DAY]), hnorm]
  refine ⟨hnorm, ?_, ?_⟩
  · intro week
    rw [saveDayFromJson_eq 0 _ week (by omega) (by omega)]
    rw [List.filterMap_cons_some hnorm]
    rfl
  · intro week
    simp only [loadWeekFromFS]
    have h7 : ([[(⟨t, dur, en⟩ : RawEvent)], [], [], [], [], [], []] :
        List (List RawEvent)).length = 7 := rfl
    rw [if_pos h7]
    simp only [List.map, hbuild]
    rfl

/-- Witness for C9: the malformed string 12x3400 is accepted and stored as the
event 12:34. -/
theorem time_validation_lax_case :
    normEvent ⟨"12x3400".toList, some 5, some true⟩ =
      some { hh := 12, mm := 34, duration := 5, enabled := true, firedToday := false } := by
  have h := (time_validation_lax "12x3400".toList (some 5) (some true)
    (by decide) (by decide) (by decide) (by decide) (by decide)).1
  rw [h]
  decide

/-- Claim C3 (counterexample): a persisted table with 7 day-lists in which one
event's time field is the malformed string bad loads successfully — the event is
skipped, the load returns success and no reseed happens, where the claim says the
load must fail. -/
theorem load_accepts_malformed_time :
    loadWeekFromFS
      (FSRead.ok [[⟨"bad".toList, some 5, some true⟩], [], [], [], [], [], []])
      (List.replicate 7 []) =
      (true, List.replicate 7 ([] : List Event), 0) := by
  decide

/-- Claim C3 (amended): loadWeekFromFS fails exactly when the store is unreadable
(open failure), corrupt (parse error or a missing days array), or the day-list
count differs from 7; an individual event with a time failing the per-event check
is skipped without failing the load.  Every failure path returns before touching
the table, and the caller then seeds the built-in default 7-day schedule and
persists it, so a load failure never leaves a partial table and is never fatal. -/
theorem load_failure_seeds_defaults (r : FSRead) (week : List (List Event)) :
    ((loadWeekFromFS r week).1 = false ↔
      (r = FSRead.openFail ∨ r = FSRead.parseErr ∨ r = FSRead.noDaysArray ∨
        ∃ days, r = FSRead.ok days ∧ days.length ≠ 7)) ∧
    ((loadWeekFromFS r week).1 = false →
      (loadWeekFromFS r week).2.1 = week ∧
      setupLoadSchedule r week = (seedDefaultWeek, 1)) ∧
    (∀ days, days.length = 7 →
      loadWeekFromFS (FSRead.ok days) week =
        (true, days.map (fun l => buildDay l 0), 0)) := by
  have hthird : ∀ days : List (List RawEvent), days.length = 7 →
      loadWeekFromFS (FSRead.ok days) week =
        (true, days.map (fun l => buildDay l 0), 0) := by
    intro days hl
    simp only [loadWeekFromFS]
    rw [if_pos hl]
  refine ⟨?_, ?_, hthird⟩
  · cases r with
    | absent => simp [loadWeekFromFS]
    | openFail => simp [loadWeekFromFS]
    | parseErr => simp [loadWeekFromFS]
    | noDaysArray => simp [loadWeekFromFS]
    | ok days =>
      by_cases hl : days.length = 7
      · rw [hthird days hl]
        simp [hl]
      · simp only [loadWeekFromFS]
        rw [if_neg hl]
        simp [hl]
  · intro hfail
    cases r with
    | absent => simp [loadWeekFromFS] at hfail
    | openFail => exact ⟨rfl, rfl⟩
    | parseErr => exact ⟨rfl, rfl⟩
    | noDaysArray => exact ⟨rfl, rfl⟩
    | ok days =>
      by_cases hl : days.length = 7
      · rw [hthird days hl] at hfail
        simp at hfail
      · have hload : loadWeekFromFS (FSRead.ok days) week = (false, week, 0) := by
          simp only [loadWeekFromFS]
          rw [if_neg hl]
        refine ⟨by rw [hload], ?_⟩
        simp only [setupLoadSchedule, hload]

/-- Witness for C3: the spec's 5-day corrupt table makes the load fail and the
caller seed and persist the full default week. -/
theorem load_failure_seeds_defaults_case :
    setupLoadSchedule (FSRead.ok (List.replicate 5 [])) (List.replicate 7 []) =
      (seedDefaultWeek, 1) :=
  ((load_failure_seeds_defaults (FSRead.ok (List.replicate 5 []))
      (List.replicate 7 [])).2.1 (by decide)).2

/-- Every reachable minutes-until is below the scan's initial bound 8*24*60. -/
theorem deltaMin_lt (hh mm : Int) (wday d : Nat) (e : Event)
    (hw : wday < 7) (hd : d < 7)
    (hhh : 0 ≤ hh) (hh1 : hh ≤ 23) (hmm : 0 ≤ mm) (hm1 : mm ≤ 59)
    (he1 : 0 ≤ e.hh) (he2 : e.hh ≤ 23) (he3 : 0 ≤ e.mm) (he4 : e.mm ≤ 59) :
    deltaMin hh mm wday d e < 8 * 24 * 60 := by
  simp only [deltaMin, deltaDayOf]
  split_ifs <;> omega

/-- Fold invariant of the inner loop: the running best only decreases, ends below
every enabled event's minutes-until, and is either untouched or set by some
enabled event of the list. -/
theorem neDay_spec (hh mm : Int) (wday d : Nat) (l : List Event) :
    ∀ (i0 : Nat) (b : Option (Nat × Nat) × Int),
    (neDay hh mm wday d l i0 b).2 ≤ b.2 ∧
    (∀ j e, l.get? j = some e → e.enabled = true →
      (neDay hh mm wday d l i0 b).2 ≤ deltaMin hh mm wday d e) ∧
    (neDay hh mm wday d l i0 b = b ∨
      ∃ j e, l.get? j = some e ∧ e.enabled = true ∧
        (neDay hh mm wday d l i0 b).1 = some (d, i0 + j) ∧
        (neDay hh mm wday d l i0 b).2 = deltaMin hh mm wday d e) := by
  induction l with
  | nil =>
    intro i0 b
    refine ⟨le_refl _, ?_, Or.inl rfl⟩
    intro j e hj
    simp at hj
  | cons e rest ih =>
    intro i0 b
    by_cases hc : e.enabled = true ∧ deltaMin hh mm wday d e < b.2
    · have hstep : neDay hh mm wday d (e :: rest) i0 b =
          neDay hh mm wday d rest (i0 + 1) (some (d, i0), deltaMin hh mm wday d e) := by
        simp only [neDay]
        rw [if_pos hc]
      obtain ⟨ih1, ih2, ih3⟩ := ih (i0 + 1) (some (d, i0), deltaMin hh mm wday d e)
      rw [hstep]
      refine ⟨le_trans ih1 (le_of_lt hc.2), ?_, ?_⟩
      · intro j e' hj he'
        cases j with
        | zero =>
          rw [List.get?_cons_zero] at hj
          injection hj with hj'
          subst hj'
          exact ih1
        | succ j => exact ih2 j e' (by simpa using hj) he'
      · rcases ih3 with h | ⟨j, e', hj, he', h1, h2⟩
        · right
          refine ⟨0, e, rfl, hc.1, ?_, ?_⟩
          · rw [h]
            simp
          · rw [h]
        · right
          exact ⟨j + 1, e', by simpa using hj, he',
            by rw [h1, show i0 + 1 + j = i0 + (j + 1) from by omega], h2⟩
    · have hstep : neDay hh mm wday d (e :: rest) i0 b =
          neDay hh mm wday d rest (i0 + 1) b := by
        simp only [neDay]
        rw [if_neg hc]
      obtain ⟨ih1, ih2, ih3⟩ := ih (i0 + 1) b
      rw [hstep]
      refine ⟨ih1, ?_, ?_⟩
      · intro j e' hj he'
        cases j with
        | zero =>
          rw [List.get?_cons_zero] at hj
          injection hj with hj'
          subst hj'
          have hnlt : ¬ deltaMin hh mm wday d e < b.2 := fun hlt => hc ⟨he', hlt⟩
          exact le_trans ih1 (not_lt.1 hnlt)
        | succ j => exact ih2 j e' (by simpa using hj) he'
      · rcases ih3 with h | ⟨j, e', hj, he', h1, h2⟩
        · exact Or.inl h
        · exact Or.inr ⟨j + 1, e', by simpa using hj, he',
            by rw [h1, show i0 + 1 + j = i0 + (j + 1) from by omega], h2⟩

/-- Fold invariant of the outer loop over a list of day indices. -/
theorem neDays_spec (hh mm : Int) (wday : Nat) (week : List (List Event)) :
    ∀ (ds : List Nat) (b : Option (Nat × Nat) × Int),
    (neDays hh mm wday week ds b).2 ≤ b.2 ∧
    (∀ d ∈ ds, ∀ j e, (week.getD d []).get? j = some e → e.enabled = true →
      (neDays hh mm wday week ds b).2 ≤ deltaMin hh mm wday d e) ∧
    (neDays hh mm wday week ds b = b ∨
      ∃ d ∈ ds, ∃ j e, (week.getD d []).get? j = some e ∧ e.enabled = true ∧
        (neDays hh mm wday week ds b).1 = some (d, j) ∧
        (neDays hh mm wday week ds b).2 = deltaMin hh mm wday d e) := by
  intro ds
  induction ds with
  | nil =>
    intro b
    refine ⟨le_refl _, ?_, Or.inl rfl⟩
    intro d hd
    simp at hd
  | cons d0 ds ih =>
    intro b
    have hstep : neDays hh mm wday week (d0 :: ds) b =
        neDays hh mm wday week ds (neDay hh mm wday d0 (week.getD d0 []) 0 b) := rfl
    obtain ⟨dp1, dp2, dp3⟩ := neDay_spec hh mm wday d0 (week.getD d0 []) 0 b
    obtain ⟨ih1, ih2, ih3⟩ := ih (neDay hh mm wday d0 (week.getD d0 []) 0 b)
    rw [hstep]
    refine ⟨le_trans ih1 dp1, ?_, ?_⟩
    · intro d hd j e hj he
      rcases List.mem_cons.1 hd with rfl | hd'
      · exact le_trans ih1 (dp2 j e hj he)
      · exact ih2 d hd' j e hj he
    · rcases ih3 with h | ⟨d, hd, j, e, hj, he, h1, h2⟩
      · rcases dp3 with h' | ⟨j, e, hj, he, h1, h2⟩
        · exact Or.inl (h.trans h')
        · right
          refine ⟨d0, List.mem_cons_self d0 ds, j, e, hj, he, ?_, ?_⟩
          · rw [h, h1]
            simp
          · rw [h, h2]
      · exact Or.inr ⟨d, List.mem_cons_of_mem d0 hd, j, e, hj, he, h1, h2⟩

/-- Claim C8: on a table whose events carry valid times and a valid snapshot,
nextEvent returns none exactly when no day 0..6 holds an enabled event, and
otherwise returns an enabled event whose minutes-until (same-day delta wrapping a
past event to next week, day offset plus time delta for later days) is minimal
over every enabled event of all 7 days. -/
theorem nextEvent_minimizes (hh mm : Int) (wday : Nat) (week : List (List Event))
    (hw : wday < 7) (hhh : 0 ≤ hh) (hh1 : hh ≤ 23) (hmm : 0 ≤ mm) (hm1 : mm ≤ 59)
    (hvalid : ∀ d < 7, ∀ e ∈ week.getD d [],
      0 ≤ e.hh ∧ e.hh ≤ 23 ∧ 0 ≤ e.mm ∧ e.mm ≤ 59) :
    (nextEvent hh mm wday week = none ↔
      ∀ d < 7, ∀ e ∈ week.getD d [], e.enabled = false) ∧
    (∀ d i delta, nextEvent hh mm wday week = some (d, i, delta) →
      d < 7 ∧ ∃ e, (week.getD d []).get? i = some e ∧ e.enabled = true ∧
        delta = deltaMin hh mm wday d e ∧
        ∀ d' < 7, ∀ i' e', (week.getD d' []).get? i' = some e' → e'.enabled = true →
          delta ≤ deltaMin hh mm wday d' e') := by
  obtain ⟨h1, h2, h3⟩ := neDays_spec hh mm wday week (List.range 7) (none, 8 * 24 * 60)
  rcases hR : neDays hh mm wday week (List.range 7) (none, 8 * 24 * 60) with ⟨bb, m⟩
  rw [hR] at h1 h2 h3
  constructor
  · constructor
    · intro hnone d hd e he
      cases bb with
      | some p =>
        rcases p with ⟨d0, i0⟩
        have hne : nextEvent hh mm wday week = some (d0, i0, m) := by
          simp only [nextEvent]
          rw [hR]
        rw [hne] at hnone
        exact Option.noConfusion hnone
      | none =>
        by_contra hen
        have hen' : e.enabled = true := by
          cases hq : e.enabled
          · exact absurd hq hen
          · rfl
        obtain ⟨j, hj⟩ := List.mem_iff_get?.1 he
        have hle := h2 d (List.mem_range.2 hd) j e hj hen'
        have hm0 : m = 8 * 24 * 60 := by
          rcases h3 with h | ⟨d', _, j', e', _, _, hsome, _⟩
          · simp only [Prod.mk.injEq] at h
            exact h.2
          · simp at hsome
        obtain ⟨hb1, hb2, hb3, hb4⟩ := hvalid d hd e he
        have := deltaMin_lt hh mm wday d e hw hd hhh hh1 hmm hm1 hb1 hb2 hb3 hb4
        simp only at hle
        omega
    · intro hdis
      rcases h3 with h | ⟨d, hd, j, e, hj, he, hsome, _⟩
      · have hbb : bb = none := by
          simp only [Prod.mk.injEq] at h
          exact h.1
        subst hbb
        simp only [nextEvent]
        rw [hR]
      · exfalso
        have hmem : e ∈ week.getD d [] := List.get?_mem hj
        have := hdis d (List.mem_range.1 hd) e hmem
        rw [he] at this
        exact absurd this (by simp)
  · intro d i delta hsome
    cases bb with
    | none =>
      have hne : nextEvent hh mm wday week = none := by
        simp only [nextEvent]
        rw [hR]
      rw [hne] at hsome
      exact Option.noConfusion hsome
    | some p =>
      rcases p with ⟨d0, i0⟩
      have hne : nextEvent hh mm wday week = some (d0, i0, m) := by
        simp only [nextEvent]
        rw [hR]
      rw [hne] at hsome
      injection hsome with hs
      injection hs with hs1 hs'
      injection hs' with hs2 hs3
      subst hs1
      subst hs2
      subst hs3
      rcases h3 with h | ⟨d', hd', j, e, hj, he, hsome1, hsome2⟩
      · exfalso
        simp only [Prod.mk.injEq] at h
        exact Option.noConfusion h.1
      · simp only at hsome1
        injection hsome1 with hs
        injection hs with hs1 hs2
        subst hs1
        subst hs2
        refine ⟨List.mem_range.1 hd', e, hj, he, hsome2, ?_⟩
        intro d2 hd2 i2 e2 hj2 he2
        exact h2 d2 (List.mem_range.2 hd2) i2 e2 hj2 he2

/-- Witness for C8: Wednesday (day 2) holds one enabled event at 18:00; at
17:00 on Wednesday that event wins with minutes-until 60, minimal over the
table. -/
theorem nextEvent_minimizes_case :
    2 < 7 ∧ ∃ e, (([[], [], [⟨18, 0, 5, true, false⟩], [], [], [], []] :
        List (List Event)).getD 2 []).get? 0 = some e ∧ e.enabled = true ∧
      (60 : Int) = deltaMin 17 0 2 2 e ∧
      ∀ d' < 7, ∀ i' e', (([[], [], [⟨18, 0, 5, true, false⟩], [], [], [], []] :
          List (List Event)).getD d' []).get? i' = some e' → e'.enabled = true →
        (60 : Int) ≤ deltaMin 17 0 2 d' e' :=
  (nextEvent_minimizes 17 0 2 [[], [], [⟨18, 0, 5, true, false⟩], [], [], [], []]
    (by decide) (by decide) (by decide) (by decide) (by decide)
    (by decide)).2 2 0 60 (by decide)

end Sunete
